import Mathlib

/-!
Shallow embedding of `src/main.py`: a Librus → Google Tasks synchronization
script.  Pure data flow is modelled directly; the remote Google Tasks list is
threaded explicitly as a `List RemoteTask`; Python exceptions are modelled by
`Option` (with `none` for a raised exception) at the places the script can
raise or catch.  `datetime.now()` is a parameter `now : DT` of each operation.
-/

set_option maxRecDepth 4000

namespace LibrusSpec

/-- A calendar date, as Python `datetime.date`: compared field-lexicographically. -/
structure Date where
  year : Nat
  month : Nat
  day : Nat
deriving DecidableEq

/-- Python `date` comparison: lexicographic on (year, month, day). -/
def dateLt (a b : Date) : Bool :=
  decide (a.year < b.year ∨ (a.year = b.year ∧
    (a.month < b.month ∨ (a.month = b.month ∧ a.day < b.day))))

/-- A `datetime`: a date together with the time of day (e.g. in microseconds
since midnight; only `tod = 0`, i.e. exact midnight, matters here). -/
structure DT where
  date : Date
  tod : Nat
deriving DecidableEq

/-- Python `datetime` comparison: lexicographic on (date, time-of-day). -/
def dtLt (a b : DT) : Bool :=
  dateLt a.date b.date || (decide (a.date = b.date) && decide (a.tod < b.tod))

/-- Gregorian leap year, as in Python `calendar`/`datetime`. -/
def isLeap (y : Nat) : Bool :=
  (y % 4 == 0 && y % 100 != 0) || (y % 400 == 0)

/-- Number of days of month `m` of year `y` (Gregorian). -/
def daysInMonth (y m : Nat) : Nat :=
  if m = 2 then (if isLeap y then 29 else 28)
  else if m = 4 ∨ m = 6 ∨ m = 9 ∨ m = 11 then 30
  else 31

/-- The previous calendar day: the date part of `dt - timedelta(days=1)`. -/
def prevDate (d : Date) : Date :=
  if 1 < d.day then ⟨d.year, d.month, d.day - 1⟩
  else if 1 < d.month then ⟨d.year, d.month - 1, daysInMonth d.year (d.month - 1)⟩
  else ⟨d.year - 1, 12, 31⟩

/-- ASCII decimal digit test. -/
def digitChar (c : Char) : Bool := decide ('0' ≤ c ∧ c ≤ '9')

/-- Numeric value of a decimal digit character. -/
def digitVal (c : Char) : Nat := c.toNat - '0'.toNat

/-- The `%m` component of CPython `strptime` followed by the literal `-`:
regex `(1[0-2]|0[1-9]|[1-9])-`, alternatives tried in order with
backtracking.  Returns the month value and the unconsumed characters. -/
def parseMonthDash : List Char → Option (Nat × List Char)
  | a :: b :: rest =>
    if (a = '1' ∧ '0' ≤ b ∧ b ≤ '2') ∨ (a = '0' ∧ '1' ≤ b ∧ b ≤ '9') then
      match rest with
      | '-' :: rest2 => some (10 * digitVal a + digitVal b, rest2)
      | _ => none
    else if ('1' ≤ a ∧ a ≤ '9') ∧ b = '-' then some (digitVal a, rest)
    else none
  | _ => none

/-- The `%d` component of CPython `strptime` at the end of the format:
regex `(3[01]|[12][0-9]|0[1-9]|[1-9])`; any character left over after it
makes the whole parse fail (`unconverted data remains`). -/
def parseDayEnd : List Char → Option Nat
  | [a] => if '1' ≤ a ∧ a ≤ '9' then some (digitVal a) else none
  | [a, b] =>
    if (a = '3' ∧ (b = '0' ∨ b = '1')) ∨
       ((a = '1' ∨ a = '2') ∧ digitChar b) ∨
       (a = '0' ∧ '1' ≤ b ∧ b ≤ '9') then
      some (10 * digitVal a + digitVal b)
    else none
  | _ => none

/-- `datetime.strptime(s, "%Y-%m-%d")`, returning `none` where Python raises
`ValueError`: `%Y` is exactly four digits, then the checks performed by the
`datetime` constructor (year ≥ 1, day within the month's length). -/
def parseDate (s : String) : Option Date :=
  match s.data with
  | y1 :: y2 :: y3 :: y4 :: '-' :: rest =>
    if digitChar y1 ∧ digitChar y2 ∧ digitChar y3 ∧ digitChar y4 then
      match parseMonthDash rest with
      | some (m, rest2) =>
        match parseDayEnd rest2 with
        | some d =>
          let y := 1000 * digitVal y1 + 100 * digitVal y2 + 10 * digitVal y3 + digitVal y4
          if 1 ≤ y ∧ d ≤ daysInMonth y m then some ⟨y, m, d⟩ else none
        | none => none
      | none => none
    else none
  | _ => none

/-- Zero-pad a numeral to two characters, as in `%02d`. -/
def pad2 (n : Nat) : String := if n < 10 then "0" ++ toString n else toString n

/-- Zero-pad a numeral to four characters, as in `%04d`. -/
def pad4 (n : Nat) : String :=
  if n < 10 then "000" ++ toString n
  else if n < 100 then "00" ++ toString n
  else if n < 1000 then "0" ++ toString n
  else toString n

/-- `date.isoformat()`: the canonical `YYYY-MM-DD` rendering of a date. -/
def formatDate (d : Date) : String :=
  pad4 d.year ++ "-" ++ pad2 d.month ++ "-" ++ pad2 d.day

/-- Python `s.startswith(p)`: `p` is a character-level prefix of `s`. -/
def pyStartsWith (s p : String) : Bool := p.data.isPrefixOf s.data

/-- Substring occurrence on character lists (Python `needle in hay`). -/
def listContains (hay needle : List Char) : Bool :=
  needle.isPrefixOf hay ||
    match hay with
    | [] => false
    | _ :: t => listContains t needle

/-- Python `needle in hay` on strings. -/
def pyContains (hay needle : String) : Bool := listContains hay.data needle.data

/-- Python `str.lower()` (accurate on the ASCII range used here). -/
def pyLower (s : String) : String := String.mk (s.data.map Char.toLower)

/-- Python whitespace for `str.split()` with no separator. -/
def pySpace (c : Char) : Bool :=
  c = ' ' || c = '\t' || c = '\n' || c = '\r' || c = '\x0b' || c = '\x0c'

/-- Python `s.split()[0]`: the first whitespace-delimited token, or `none`
(an `IndexError`) when the string has no non-whitespace character. -/
def pyFirstToken (s : String) : Option String :=
  match s.data.dropWhile pySpace with
  | [] => none
  | c :: rest => some (String.mk ((c :: rest).takeWhile (fun ch => !pySpace ch)))

/-- Python string `<`: lexicographic by code point. -/
def pyStrLtL : List Char → List Char → Bool
  | [], [] => false
  | [], _ :: _ => true
  | _ :: _, [] => false
  | a :: as, b :: bs => decide (a < b) || (decide (a = b) && pyStrLtL as bs)

/-- Python string `<` on strings. -/
def pyStrLt (a b : String) : Bool := pyStrLtL a.data b.data

/-- Python string `≤`. -/
def pyStrLe (a b : String) : Bool := pyStrLt a b || decide (a = b)

/-- The normalized in-memory task shape appended to `self.all_tasks`. -/
structure TaskCandidate where
  title : String
  date : String
  notes : String
deriving DecidableEq

/-- A task as held by the Google Tasks list (the Task Store);
`completed` models the task status filtered by `showCompleted=False`. -/
structure RemoteTask where
  title : String
  due : String
  notes : String
  completed : Bool
deriving DecidableEq

/-- `tasks().list(..., showCompleted=False)`: the non-completed tasks. -/
def visibleTasks (store : List RemoteTask) : List RemoteTask :=
  store.filter fun t => !t.completed

/-- The dedup test of the loop in `add_task_if_not_exists`:
`task['title'] == event_title and task['due'].startswith(event_date)`. -/
def taskMatches (event_title event_date : String) (t : RemoteTask) : Bool :=
  t.title == event_title && pyStartsWith t.due event_date

/-- Some non-completed task in the store matches the candidate. -/
def visibleMatch (store : List RemoteTask) (event_title event_date : String) : Bool :=
  (visibleTasks store).any (taskMatches event_title event_date)

/-- The task body inserted by `add_task_if_not_exists`:
`due = datetime.strptime(event_date, "%Y-%m-%d").isoformat() + "Z"`. -/
def newRemoteTask (event_title : String) (d : Date) (notes : String) : RemoteTask :=
  ⟨event_title, formatDate d ++ "T00:00:00" ++ "Z", notes, false⟩

/-- `GoogleTasksManager.add_task_if_not_exists(event_title, event_date, notes)`.
Result: `none` when `strptime` raises; otherwise the store after the call,
the returned boolean, and the list of Task-Store interactions performed,
each tagged with the candidate's date (`list` query, then possibly `insert`). -/
def add_task_if_not_exists (now : DT) (store : List RemoteTask)
    (event_title event_date notes : String) :
    Option (List RemoteTask × Bool × List String) :=
  match parseDate event_date with
  | none => none
  | some d =>
    if d = now.date then some (store, false, [])
    else if visibleMatch store event_title event_date then
      some (store, false, [event_date])
    else
      some (store ++ [newRemoteTask event_title d notes], true, [event_date, event_date])

/-- Stable insertion into a list sorted by date descending: the new element
goes after every element whose date is ≥ its own. -/
def insertDesc (c : TaskCandidate) : List TaskCandidate → List TaskCandidate
  | [] => [c]
  | x :: xs =>
    if pyStrLe x.date c.date then c :: x :: xs else x :: insertDesc c xs

/-- `self.all_tasks.sort(key=lambda task: task['date'], reverse=True)`:
the stable sort by date descending (Python's stable sort, embedded as
stable insertion sort — stable sorts by a total preorder agree). -/
def sortTasks (tasks : List TaskCandidate) : List TaskCandidate :=
  tasks.foldr insertDesc []

/-- The loop of `process_collected_tasks` over the sorted candidates:
threads the store, counts the `True` returns, and concatenates the
per-candidate interaction traces.  `none` when a call raises. -/
def processTasksGo (now : DT) :
    List TaskCandidate → List RemoteTask → Nat → Option (List RemoteTask × Nat × List String)
  | [], store, n => some (store, n, [])
  | c :: cs, store, n =>
    match add_task_if_not_exists now store c.title c.date c.notes with
    | none => none
    | some (store', added, ops) =>
      match processTasksGo now cs store' (if added then n + 1 else n) with
      | none => none
      | some (s, m, tr) => some (s, m, ops ++ tr)

/-- `LibrusSync.process_collected_tasks` (= the spec's `submit_all`):
sort descending by date, then submit each candidate. -/
def process_collected_tasks (now : DT) (store : List RemoteTask)
    (all_tasks : List TaskCandidate) : Option (List RemoteTask × Nat × List String) :=
  processTasksGo now (sortTasks all_tasks) store 0

/-- A raw schedule event (librus_apix event fields used by the script);
absent `subject`/`hour` are modelled by `""` (Python falsy). -/
structure Event where
  title : String
  subject : String
  hour : String
  data : List (String × String)
deriving DecidableEq

/-- `TEST_KEYWORDS`. -/
def TEST_KEYWORDS : List String := ["sprawdzian", "kartkówka"]

/-- `any(keyword in event.title.lower() for keyword in TEST_KEYWORDS)`. -/
def keywordMatch (title : String) : Bool :=
  TEST_KEYWORDS.any fun k => pyContains (pyLower title) k

/-- The notes built by `_add_event_task`. -/
def eventNotes (ev : Event) : String :=
  let notes := (ev.data.filter fun kv => decide (kv.2 ≠ "" ∧ kv.2 ≠ "unknown")).map
    fun kv => kv.1 ++ ": " ++ kv.2
  if notes = [] then "Brak dodatkowych informacji" else String.intercalate "\n" notes

/-- The title built by `_add_event_task`. -/
def eventTitle (ev : Event) : String :=
  let base := if ev.subject ≠ "" then ev.title ++ " - " ++ ev.subject else ev.title
  if ev.hour ≠ "" ∧ ev.hour ≠ "unknown" then base ++ " (" ++ ev.hour ++ ")" else base

/-- `LibrusSync._add_event_task`: append one schedule candidate. -/
def add_event_task (ev : Event) (event_date : String)
    (acc : List TaskCandidate) : List TaskCandidate :=
  acc ++ [⟨eventTitle ev, event_date, eventNotes ev⟩]

/-- `str(day).zfill(2)` composed into `f"{year}-{month}-{...}"`. -/
def zfill2 (s : String) : String :=
  if s.length < 2 then String.mk (List.replicate (2 - s.length) '0' ++ s.data) else s

/-- The `event_date` string built in `_process_day_events`. -/
def mkEventDate (year month : String) (day : Nat) : String :=
  year ++ "-" ++ month ++ "-" ++ zfill2 (toString day)

/-- `LibrusSync._process_day_events`: the loop over one day's events.
Returns the accumulated candidate list and a flag that is `true` when the
unguarded `strptime` raised (aborting the whole schedule pass). -/
def process_day_events (now : DT) :
    List Event → Nat → String → String → List TaskCandidate → List TaskCandidate × Bool
  | [], _, _, _, acc => (acc, false)
  | ev :: rest, day, month, year, acc =>
    if ev.title = "" then process_day_events now rest day month year acc
    else if keywordMatch ev.title = false then process_day_events now rest day month year acc
    else
      match parseDate (mkEventDate year month day) with
      | none => (acc, true)
      | some d =>
        if dtLt ⟨d, 0⟩ ⟨prevDate now.date, now.tod⟩ then
          process_day_events now rest day month year acc
        else
          process_day_events now rest day month year (add_event_task ev (mkEventDate year month day) acc)

/-- The loop of `LibrusSync.process_schedule` over the schedule mapping
(`for day, events in schedule.items(): if events: ...`); a raised
exception stops the pass and propagates (flag `true`). -/
def process_schedule_days (now : DT) (month year : String) :
    List (Nat × List Event) → List TaskCandidate → List TaskCandidate × Bool
  | [], acc => (acc, false)
  | (day, evs) :: rest, acc =>
    if evs = [] then process_schedule_days now month year rest acc
    else
      match process_day_events now evs day month year acc with
      | (acc', true) => (acc', true)
      | (acc', false) => process_schedule_days now month year rest acc'

/-- A raw homework record (librus_apix fields used by the script). -/
structure Homework where
  lesson : String
  completion_date : String
  href : String
deriving DecidableEq

/-- The notes built in `_process_single_homework` from the detail mapping. -/
def homeworkNotes (details : List (String × String)) : String :=
  String.intercalate "\n"
    ((details.filter fun kv => decide (kv.2 ≠ "")).map fun kv => kv.1 ++ ": " ++ kv.2)

/-- `LibrusSync._process_single_homework`.  `details` is the external
`homework_detail` lookup (`none` = the fetch raises).  The result is `none`
when an uncaught exception escapes this call: the `IndexError` of
`completion_date.split()[0]` on a token-less string (which is outside the
`try`), or a failing detail fetch.  A `ValueError` from `strptime` is
caught and skips the item (`some acc`). -/
def process_single_homework (now : DT) (details : String → Option (List (String × String)))
    (acc : List TaskCandidate) (hw : Homework) : Option (List TaskCandidate) :=
  match pyFirstToken hw.completion_date with
  | none => none
  | some completion_date =>
    match parseDate completion_date with
    | none => some acc
    | some d =>
      if d = now.date then some acc
      else if dateLt d now.date then some acc
      else
        match details hw.href with
        | none => none
        | some det =>
          some (acc ++ [⟨"zadanie - " ++ hw.lesson, completion_date, homeworkNotes det⟩])

/-- The loop of `LibrusSync.process_homework`: each item in turn; an
exception escaping `_process_single_homework` is caught by the blanket
`except` and ends the pass, keeping the candidates collected so far. -/
def process_homework (now : DT) (details : String → Option (List (String × String))) :
    List Homework → List TaskCandidate → List TaskCandidate
  | [], acc => acc
  | hw :: rest, acc =>
    match process_single_homework now details acc hw with
    | none => acc
    | some acc' => process_homework now details rest acc'

/-- The collection phase of `main`: `process_schedule` then
`process_homework` populating `all_tasks`.  A schedule-pass exception
propagates out of `main` (`none`): `process_collected_tasks` is then never
reached.  The homework pass never raises (blanket `except`). -/
def collect_all (now : DT) (schedule : List (Nat × List Event)) (month year : String)
    (details : String → Option (List (String × String))) (homeworks : List Homework) :
    Option (List TaskCandidate) :=
  match process_schedule_days now month year schedule [] with
  | (_, true) => none
  | (acc, false) => some (process_homework now details homeworks acc)

/-- The embed sent by `send_discord_embed`. -/
structure Embed where
  title : String
  description : String
  color : Nat
  timestamp : String
deriving DecidableEq

/-- `send_discord_embed(title, description, color)`: `none` when no webhook
URL is configured (nothing sent); otherwise the embed posted, with the
description truncated to `4096 - 3` characters plus `"..."` when longer
than 4096 characters.  `nowIso` stands for `datetime.now().isoformat()`. -/
def send_discord_embed (webhook_url : Option String) (title description : String)
    (color : Nat) (nowIso : String) : Option Embed :=
  match webhook_url with
  | none => none
  | some _ =>
    let maxDescLength := 4096
    let descSent :=
      if description.length > maxDescLength then
        description.take (maxDescLength - 3) ++ "..."
      else description
    some ⟨title, descSent, color, nowIso⟩

end LibrusSpec

namespace LibrusSpec

/-! ### Order lemmas for the Python string order -/

theorem pyStrLtL_trans : ∀ as bs cs : List Char,
    pyStrLtL as bs = true → pyStrLtL bs cs = true → pyStrLtL as cs = true := by
  intro as
  induction as with
  | nil =>
    intro bs cs h1 h2
    cases bs with
    | nil => exact h2
    | cons b bs' =>
      cases cs with
      | nil => simp [pyStrLtL] at h2
      | cons c cs' => simp [pyStrLtL]
  | cons a as' ih =>
    intro bs cs h1 h2
    cases bs with
    | nil => simp [pyStrLtL] at h1
    | cons b bs' =>
      cases cs with
      | nil => simp [pyStrLtL] at h2
      | cons c cs' =>
        simp only [pyStrLtL, Bool.or_eq_true, Bool.and_eq_true, decide_eq_true_eq] at h1 h2 ⊢
        rcases h1 with h1 | ⟨rfl, h1⟩
        · rcases h2 with h2 | ⟨rfl, h2⟩
          · exact Or.inl (lt_trans h1 h2)
          · exact Or.inl h1
        · rcases h2 with h2 | ⟨rfl, h2⟩
          · exact Or.inl h2
          · exact Or.inr ⟨rfl, ih bs' cs' h1 h2⟩

theorem pyStrLtL_tri : ∀ as bs : List Char,
    pyStrLtL as bs = true ∨ as = bs ∨ pyStrLtL bs as = true := by
  intro as
  induction as with
  | nil =>
    intro bs
    cases bs with
    | nil => exact Or.inr (Or.inl rfl)
    | cons b bs' => exact Or.inl (by simp [pyStrLtL])
  | cons a as' ih =>
    intro bs
    cases bs with
    | nil => exact Or.inr (Or.inr (by simp [pyStrLtL]))
    | cons b bs' =>
      rcases lt_trichotomy a b with h | h | h
      · exact Or.inl (by simp [pyStrLtL, h])
      · subst h
        rcases ih bs' with h' | h' | h'
        · exact Or.inl (by simp [pyStrLtL, h'])
        · exact Or.inr (Or.inl (by rw [h']))
        · exact Or.inr (Or.inr (by simp [pyStrLtL, h']))
      · exact Or.inr (Or.inr (by simp [pyStrLtL, h]))

theorem pyStrLe_refl (a : String) : pyStrLe a a = true := by simp [pyStrLe]

theorem pyStrLe_total (a b : String) : pyStrLe a b = true ∨ pyStrLe b a = true := by
  rcases pyStrLtL_tri a.data b.data with h | h | h
  · exact Or.inl (by simp [pyStrLe, pyStrLt, h])
  · exact Or.inl (by simp [pyStrLe, String.ext h])
  · exact Or.inr (by simp [pyStrLe, pyStrLt, h])

theorem pyStrLe_trans (a b c : String) :
    pyStrLe a b = true → pyStrLe b c = true → pyStrLe a c = true := by
  simp only [pyStrLe, pyStrLt, Bool.or_eq_true, decide_eq_true_eq]
  rintro (h1 | rfl) (h2 | rfl)
  · exact Or.inl (pyStrLtL_trans _ _ _ h1 h2)
  · exact Or.inl h1
  · exact Or.inl h2
  · exact Or.inr rfl

/-! ### The stable descending sort -/

theorem sortTasks_cons (y : TaskCandidate) (ys : List TaskCandidate) :
    sortTasks (y :: ys) = insertDesc y (sortTasks ys) := rfl

theorem mem_insertDesc (c x : TaskCandidate) (l : List TaskCandidate) :
    x ∈ insertDesc c l ↔ x = c ∨ x ∈ l := by
  induction l with
  | nil => simp [insertDesc]
  | cons y ys ih =>
    simp only [insertDesc]
    by_cases h : pyStrLe y.date c.date = true
    · simp [if_pos h, List.mem_cons]
    · simp only [if_neg h, List.mem_cons, ih]
      tauto

theorem mem_sortTasks (x : TaskCandidate) (l : List TaskCandidate) :
    x ∈ sortTasks l ↔ x ∈ l := by
  induction l with
  | nil => simp [sortTasks]
  | cons y ys ih =>
    rw [sortTasks_cons, mem_insertDesc, ih, List.mem_cons]

/-- The candidate list is sorted by date descending. -/
def DescSorted (l : List TaskCandidate) : Prop :=
  l.Pairwise (fun a b => pyStrLe b.date a.date = true)

theorem insertDesc_sorted (c : TaskCandidate) (l : List TaskCandidate)
    (h : DescSorted l) : DescSorted (insertDesc c l) := by
  induction l with
  | nil => simp [insertDesc, DescSorted]
  | cons x xs ih =>
    rcases List.pairwise_cons.mp h with ⟨hx, hxs⟩
    simp only [insertDesc]
    by_cases hc : pyStrLe x.date c.date = true
    · rw [if_pos hc]
      refine List.pairwise_cons.mpr ⟨?_, h⟩
      intro y hy
      rcases List.mem_cons.mp hy with rfl | hy'
      · exact hc
      · exact pyStrLe_trans _ _ _ (hx y hy') hc
    · rw [if_neg hc]
      refine List.pairwise_cons.mpr ⟨?_, ih hxs⟩
      intro y hy
      rcases (mem_insertDesc c y xs).mp hy with rfl | hy'
      · exact (pyStrLe_total x.date y.date).resolve_left hc
      · exact hx y hy'

theorem sortTasks_sorted (l : List TaskCandidate) : DescSorted (sortTasks l) := by
  induction l with
  | nil => simp [sortTasks, DescSorted]
  | cons y ys ih =>
    rw [sortTasks_cons]
    exact insertDesc_sorted y _ ih

/-! ### Matching and store-growth lemmas -/

theorem isPrefixOf_append_self : ∀ as bs : List Char, as.isPrefixOf (as ++ bs) = true := by
  intro as bs
  induction as with
  | nil => simp [List.isPrefixOf]
  | cons a as' ih => simp [List.isPrefixOf, List.cons_append, ih]

theorem pyStartsWith_append2 (p a b : String) : pyStartsWith (p ++ a ++ b) p = true := by
  simp [pyStartsWith, String.data_append, List.append_assoc, isPrefixOf_append_self]

theorem taskMatches_newRemoteTask (title notes dt : String) (d : Date)
    (hf : formatDate d = dt) :
    taskMatches title dt (newRemoteTask title d notes) = true := by
  subst hf
  simp [taskMatches, newRemoteTask, pyStartsWith_append2]

theorem visibleMatch_append (store u : List RemoteTask) (t dt : String)
    (h : visibleMatch store t dt = true) : visibleMatch (store ++ u) t dt = true := by
  simp only [visibleMatch, visibleTasks] at h ⊢
  simp [List.filter_append, List.any_append, h]

theorem visibleMatch_new (store : List RemoteTask) (title notes dt : String) (d : Date)
    (hf : formatDate d = dt) :
    visibleMatch (store ++ [newRemoteTask title d notes]) title dt = true := by
  unfold visibleMatch visibleTasks
  rw [List.filter_append, List.any_append]
  have hfil : List.filter (fun t => !t.completed) [newRemoteTask title d notes]
      = [newRemoteTask title d notes] := rfl
  rw [hfil]
  have hB : List.any [newRemoteTask title d notes] (taskMatches title dt) = true := by
    simp [List.any_cons, taskMatches_newRemoteTask title notes dt d hf]
  rw [hB, Bool.or_true]

/-! ### Equations and case analysis for `add_task_if_not_exists` -/

theorem add_eq_skip_today (now : DT) (store : List RemoteTask) (title dt notes : String)
    (d : Date) (hp : parseDate dt = some d) (h1 : d = now.date) :
    add_task_if_not_exists now store title dt notes = some (store, false, []) := by
  unfold add_task_if_not_exists
  rw [hp]
  simp [h1]

theorem add_eq_skip_match (now : DT) (store : List RemoteTask) (title dt notes : String)
    (d : Date) (hp : parseDate dt = some d) (h1 : d ≠ now.date)
    (h2 : visibleMatch store title dt = true) :
    add_task_if_not_exists now store title dt notes = some (store, false, [dt]) := by
  unfold add_task_if_not_exists
  rw [hp]
  simp [h1, h2]

theorem add_eq_insert (now : DT) (store : List RemoteTask) (title dt notes : String)
    (d : Date) (hp : parseDate dt = some d) (h1 : d ≠ now.date)
    (h2 : visibleMatch store title dt = false) :
    add_task_if_not_exists now store title dt notes =
      some (store ++ [newRemoteTask title d notes], true, [dt, dt]) := by
  unfold add_task_if_not_exists
  rw [hp]
  simp [h1, h2]

theorem add_cases (now : DT) (store : List RemoteTask) (title dt notes : String)
    (res : List RemoteTask × Bool × List String)
    (h : add_task_if_not_exists now store title dt notes = some res) :
    ∃ d, parseDate dt = some d ∧
      ((d = now.date ∧ res = (store, false, [])) ∨
       (d ≠ now.date ∧ visibleMatch store title dt = true ∧ res = (store, false, [dt])) ∨
       (d ≠ now.date ∧ visibleMatch store title dt = false ∧
         res = (store ++ [newRemoteTask title d notes], true, [dt, dt]))) := by
  cases hp : parseDate dt with
  | none =>
    have hn : add_task_if_not_exists now store title dt notes = none := by
      unfold add_task_if_not_exists
      rw [hp]
    rw [hn] at h
    exact absurd h (by simp)
  | some d =>
    refine ⟨d, rfl, ?_⟩
    by_cases h1 : d = now.date
    · rw [add_eq_skip_today now store title dt notes d hp h1] at h
      exact Or.inl ⟨h1, (Option.some.inj h).symm⟩
    · by_cases h2 : visibleMatch store title dt = true
      · rw [add_eq_skip_match now store title dt notes d hp h1 h2] at h
        exact Or.inr (Or.inl ⟨h1, h2, (Option.some.inj h).symm⟩)
      · have h2' : visibleMatch store title dt = false := Bool.eq_false_iff.mpr h2
        rw [add_eq_insert now store title dt notes d hp h1 h2'] at h
        exact Or.inr (Or.inr ⟨h1, h2', (Option.some.inj h).symm⟩)

end LibrusSpec


namespace LibrusSpec

/-! ### Lemmas about the submission loop -/

theorem go_cons_cases (now : DT) (c0 : TaskCandidate) (cs : List TaskCandidate)
    (store : List RemoteTask) (n : Nat) (s' : List RemoteTask) (m : Nat) (tr : List String)
    (h : processTasksGo now (c0 :: cs) store n = some (s', m, tr)) :
    ∃ store1 added ops tr2,
      add_task_if_not_exists now store c0.title c0.date c0.notes = some (store1, added, ops) ∧
      processTasksGo now cs store1 (if added then n + 1 else n) = some (s', m, tr2) ∧
      tr = ops ++ tr2 := by
  simp only [processTasksGo] at h
  cases ha : add_task_if_not_exists now store c0.title c0.date c0.notes with
  | none => rw [ha] at h; simp at h
  | some res =>
    obtain ⟨store1, added, ops⟩ := res
    rw [ha] at h
    dsimp only at h
    cases hg : processTasksGo now cs store1 (if added then n + 1 else n) with
    | none => rw [hg] at h; simp at h
    | some r2 =>
      obtain ⟨s2, m2, tr2⟩ := r2
      rw [hg] at h
      dsimp only at h
      simp only [Option.some.injEq, Prod.mk.injEq] at h
      obtain ⟨rfl, rfl, rfl⟩ := h
      exact ⟨store1, added, ops, tr2, rfl, hg, rfl⟩

theorem go_extends (now : DT) : ∀ (l : List TaskCandidate) (store : List RemoteTask)
    (n : Nat) (s' : List RemoteTask) (m : Nat) (tr : List String),
    processTasksGo now l store n = some (s', m, tr) → ∃ u, store ++ u = s' := by
  intro l
  induction l with
  | nil =>
    intro store n s' m tr h
    simp only [processTasksGo, Option.some.injEq, Prod.mk.injEq] at h
    exact ⟨[], (List.append_nil store).trans h.1⟩
  | cons c0 cs ih =>
    intro store n s' m tr h
    obtain ⟨store1, added, ops, tr2, ha, hg, rfl⟩ := go_cons_cases now c0 cs store n s' m tr h
    obtain ⟨u2, hu2⟩ := ih store1 _ s' m tr2 hg
    obtain ⟨d, -, hcase⟩ := add_cases now store c0.title c0.date c0.notes _ ha
    rcases hcase with ⟨-, hres⟩ | ⟨-, -, hres⟩ | ⟨-, -, hres⟩ <;>
      simp only [Prod.mk.injEq] at hres
    · obtain ⟨rfl, -, -⟩ := hres
      exact ⟨u2, hu2⟩
    · obtain ⟨rfl, -, -⟩ := hres
      exact ⟨u2, hu2⟩
    · obtain ⟨rfl, -, -⟩ := hres
      refine ⟨[newRemoteTask c0.title d c0.notes] ++ u2, ?_⟩
      rw [← List.append_assoc]
      exact hu2

theorem run_establishes (now : DT) : ∀ (l : List TaskCandidate) (store : List RemoteTask)
    (n : Nat) (s' : List RemoteTask) (m : Nat) (tr : List String),
    processTasksGo now l store n = some (s', m, tr) →
    ∀ c ∈ l, ∀ d, parseDate c.date = some d → formatDate d = c.date →
      (d = now.date ∨ visibleMatch s' c.title c.date = true) := by
  intro l
  induction l with
  | nil =>
    intro store n s' m tr h c hc
    exact absurd hc (List.not_mem_nil c)
  | cons c0 cs ih =>
    intro store n s' m tr h c hc d hp hf
    obtain ⟨store1, added, ops, tr2, ha, hg, rfl⟩ := go_cons_cases now c0 cs store n s' m tr h
    rcases List.mem_cons.mp hc with rfl | hc'
    · -- `c` is the head: the call `ha` either found it dated today,
      -- found a visible match, or inserted a matching task itself.
      obtain ⟨d0, hp0, hcase⟩ := add_cases _ _ _ _ _ _ ha
      have hd0 : d0 = d := Option.some.inj (hp0.symm.trans hp)
      rw [hd0] at hcase
      obtain ⟨u2, hu2⟩ := go_extends now cs store1 _ s' m tr2 hg
      rcases hcase with ⟨h1, -⟩ | ⟨-, h2, hres⟩ | ⟨-, -, hres⟩
      · exact Or.inl h1
      · right
        simp only [Prod.mk.injEq] at hres
        obtain ⟨hs1, -, -⟩ := hres
        rw [← hu2, hs1]
        exact visibleMatch_append _ u2 _ _ h2
      · right
        simp only [Prod.mk.injEq] at hres
        obtain ⟨hs1, -, -⟩ := hres
        rw [← hu2, hs1]
        exact visibleMatch_append _ u2 _ _ (visibleMatch_new _ c.title c.notes c.date d hf)
    · exact ih store1 _ s' m tr2 hg c hc' d hp hf

theorem run_zero (now : DT) : ∀ (l : List TaskCandidate) (store : List RemoteTask) (n : Nat),
    (∀ c ∈ l, ∃ d, parseDate c.date = some d ∧
      (d = now.date ∨ visibleMatch store c.title c.date = true)) →
    ∃ tr, processTasksGo now l store n = some (store, n, tr) := by
  intro l
  induction l with
  | nil => intro store n _; exact ⟨[], rfl⟩
  | cons c0 cs ih =>
    intro store n h
    obtain ⟨d, hp, hor⟩ := h c0 (List.mem_cons_self c0 cs)
    obtain ⟨tr, htr⟩ := ih store n (fun c hc => h c (List.mem_cons_of_mem c0 hc))
    by_cases h1 : d = now.date
    · refine ⟨tr, ?_⟩
      simp only [processTasksGo]
      rw [add_eq_skip_today now store c0.title c0.date c0.notes d hp h1]
      simp [htr]
    · have h2 : visibleMatch store c0.title c0.date = true := hor.resolve_left h1
      refine ⟨c0.date :: tr, ?_⟩
      simp only [processTasksGo]
      rw [add_eq_skip_match now store c0.title c0.date c0.notes d hp h1 h2]
      simp [htr]

theorem go_trace_dates (now : DT) : ∀ (l : List TaskCandidate) (store : List RemoteTask)
    (n : Nat) (s' : List RemoteTask) (m : Nat) (tr : List String),
    processTasksGo now l store n = some (s', m, tr) →
    ∀ x ∈ tr, ∃ c ∈ l, x = c.date := by
  intro l
  induction l with
  | nil =>
    intro store n s' m tr h x hx
    simp only [processTasksGo, Option.some.injEq, Prod.mk.injEq] at h
    rw [← h.2.2] at hx
    exact absurd hx (List.not_mem_nil x)
  | cons c0 cs ih =>
    intro store n s' m tr h x hx
    obtain ⟨store1, added, ops, tr2, ha, hg, rfl⟩ := go_cons_cases now c0 cs store n s' m tr h
    rcases List.mem_append.mp hx with hx1 | hx2
    · -- `x` comes from the head's interactions, all tagged `c0.date`
      obtain ⟨d, -, hcase⟩ := add_cases _ _ _ _ _ _ ha
      have hops : ops = [] ∨ ops = [c0.date] ∨ ops = [c0.date, c0.date] := by
        rcases hcase with ⟨-, hres⟩ | ⟨-, -, hres⟩ | ⟨-, -, hres⟩ <;>
          simp only [Prod.mk.injEq] at hres
        · exact Or.inl hres.2.2
        · exact Or.inr (Or.inl hres.2.2)
        · exact Or.inr (Or.inr hres.2.2)
      rcases hops with rfl | rfl | rfl
      · exact absurd hx1 (List.not_mem_nil x)
      · rcases List.mem_singleton.mp hx1 with rfl
        exact ⟨c0, List.mem_cons_self c0 cs, rfl⟩
      · rcases List.mem_cons.mp hx1 with rfl | hx1'
        · exact ⟨c0, List.mem_cons_self c0 cs, rfl⟩
        · rcases List.mem_singleton.mp hx1' with rfl
          exact ⟨c0, List.mem_cons_self c0 cs, rfl⟩
    · obtain ⟨c, hcm, hcd⟩ := ih store1 _ s' m tr2 hg x hx2
      exact ⟨c, List.mem_cons_of_mem c0 hcm, hcd⟩

theorem go_trace_sorted (now : DT) : ∀ (l : List TaskCandidate) (store : List RemoteTask)
    (n : Nat) (s' : List RemoteTask) (m : Nat) (tr : List String),
    DescSorted l →
    processTasksGo now l store n = some (s', m, tr) →
    tr.Pairwise (fun x y => pyStrLe y x = true) := by
  intro l
  induction l with
  | nil =>
    intro store n s' m tr _ h
    simp only [processTasksGo, Option.some.injEq, Prod.mk.injEq] at h
    rw [← h.2.2]
    exact List.Pairwise.nil
  | cons c0 cs ih =>
    intro store n s' m tr hs h
    obtain ⟨store1, added, ops, tr2, ha, hg, rfl⟩ := go_cons_cases now c0 cs store n s' m tr h
    rcases List.pairwise_cons.mp hs with ⟨hx, hcs⟩
    have htr2 := ih store1 _ s' m tr2 hcs hg
    have hsub := go_trace_dates now cs store1 _ s' m tr2 hg
    obtain ⟨d, -, hcase⟩ := add_cases _ _ _ _ _ _ ha
    have hops : ops = [] ∨ ops = [c0.date] ∨ ops = [c0.date, c0.date] := by
      rcases hcase with ⟨-, hres⟩ | ⟨-, -, hres⟩ | ⟨-, -, hres⟩ <;>
        simp only [Prod.mk.injEq] at hres
      · exact Or.inl hres.2.2
      · exact Or.inr (Or.inl hres.2.2)
      · exact Or.inr (Or.inr hres.2.2)
    apply List.pairwise_append.mpr
    refine ⟨?_, htr2, ?_⟩
    · rcases hops with rfl | rfl | rfl
      · exact List.Pairwise.nil
      · simp
      · simp [pyStrLe_refl]
    · intro a ha' b hb
      obtain ⟨c, hcm, rfl⟩ := hsub b hb
      have hle : pyStrLe c.date c0.date = true := hx c hcm
      rcases hops with rfl | rfl | rfl
      · exact absurd ha' (List.not_mem_nil a)
      · rcases List.mem_singleton.mp ha' with rfl
        exact hle
      · rcases List.mem_cons.mp ha' with rfl | ha''
        · exact hle
        · rcases List.mem_singleton.mp ha'' with rfl
          exact hle

theorem go_total (now : DT) : ∀ (l : List TaskCandidate) (store : List RemoteTask) (n : Nat),
    (∀ c ∈ l, (parseDate c.date).isSome) →
    (processTasksGo now l store n).isSome := by
  intro l
  induction l with
  | nil => intro store n _; simp [processTasksGo]
  | cons c0 cs ih =>
    intro store n h
    obtain ⟨d, hp⟩ := Option.isSome_iff_exists.mp (h c0 (List.mem_cons_self c0 cs))
    have hcs : ∀ c ∈ cs, (parseDate c.date).isSome :=
      fun c hc => h c (List.mem_cons_of_mem c0 hc)
    simp only [processTasksGo]
    by_cases h1 : d = now.date
    · rw [add_eq_skip_today now store c0.title c0.date c0.notes d hp h1]
      obtain ⟨r, hr⟩ := Option.isSome_iff_exists.mp (ih store n hcs)
      obtain ⟨rs, rm, rtr⟩ := r
      simp [hr]
    · by_cases h2 : visibleMatch store c0.title c0.date = true
      · rw [add_eq_skip_match now store c0.title c0.date c0.notes d hp h1 h2]
        obtain ⟨r, hr⟩ := Option.isSome_iff_exists.mp (ih store n hcs)
        obtain ⟨rs, rm, rtr⟩ := r
        simp [hr]
      · have h2' : visibleMatch store c0.title c0.date = false := Bool.eq_false_iff.mpr h2
        rw [add_eq_insert now store c0.title c0.date c0.notes d hp h1 h2']
        obtain ⟨r, hr⟩ := Option.isSome_iff_exists.mp
          (ih (store ++ [newRemoteTask c0.title d c0.notes]) (n + 1) hcs)
        obtain ⟨rs, rm, rtr⟩ := r
        simp [hr]

end LibrusSpec

namespace LibrusSpec

/-! ### Date-order facts and normalizer invariants -/

theorem dateLt_tri (a b : Date) : dateLt a b = true ∨ a = b ∨ dateLt b a = true := by
  rcases a with ⟨x1, x2, x3⟩
  rcases b with ⟨z1, z2, z3⟩
  simp only [dateLt, decide_eq_true_eq, Date.mk.injEq]
  omega

theorem dtLt_midnight_false (d pd : Date) (t : Nat)
    (h : dtLt ⟨d, 0⟩ ⟨pd, t⟩ = false) :
    dateLt d pd = false ∧ (d = pd → t = 0) := by
  rcases Bool.or_eq_false_iff.mp h with ⟨h1, h2⟩
  refine ⟨h1, ?_⟩
  intro hdp
  subst hdp
  simp at h2
  omega

theorem pde_invariant (now : DT) : ∀ (events : List Event) (day : Nat) (month year : String)
    (acc acc' : List TaskCandidate) (r : Bool),
    process_day_events now events day month year acc = (acc', r) →
    ∀ c ∈ acc', c ∈ acc ∨ ∃ d, parseDate c.date = some d ∧
      dateLt d (prevDate now.date) = false ∧ (d = prevDate now.date → now.tod = 0) := by
  intro events
  induction events with
  | nil =>
    intro day month year acc acc' r h c hc
    simp only [process_day_events, Prod.mk.injEq] at h
    exact Or.inl (h.1 ▸ hc)
  | cons ev rest ih =>
    intro day month year acc acc' r h c hc
    simp only [process_day_events] at h
    by_cases h1 : ev.title = ""
    · rw [if_pos h1] at h
      exact ih day month year acc acc' r h c hc
    · rw [if_neg h1] at h
      by_cases h2 : keywordMatch ev.title = false
      · rw [if_pos h2] at h
        exact ih day month year acc acc' r h c hc
      · rw [if_neg h2] at h
        cases hp : parseDate (mkEventDate year month day) with
        | none =>
          rw [hp] at h
          dsimp only at h
          simp only [Prod.mk.injEq] at h
          exact Or.inl (h.1 ▸ hc)
        | some d =>
          rw [hp] at h
          dsimp only at h
          by_cases h3 : dtLt ⟨d, 0⟩ ⟨prevDate now.date, now.tod⟩ = true
          · rw [if_pos h3] at h
            exact ih day month year acc acc' r h c hc
          · rw [if_neg h3] at h
            rcases ih day month year _ acc' r h c hc with hin | hnew
            · simp only [add_event_task] at hin
              rcases List.mem_append.mp hin with hin1 | hin2
              · exact Or.inl hin1
              · right
                rcases List.mem_singleton.mp hin2 with rfl
                have h3' := Bool.eq_false_iff.mpr h3
                obtain ⟨hlt, himp⟩ := dtLt_midnight_false d (prevDate now.date) now.tod h3'
                exact ⟨d, hp, hlt, himp⟩
            · exact Or.inr hnew

theorem pde_parses (now : DT) (events : List Event) (day : Nat) (month year : String)
    (acc acc' : List TaskCandidate) (r : Bool)
    (h : process_day_events now events day month year acc = (acc', r))
    (hacc : ∀ c ∈ acc, (parseDate c.date).isSome) :
    ∀ c ∈ acc', (parseDate c.date).isSome := by
  intro c hc
  rcases pde_invariant now events day month year acc acc' r h c hc with hin | ⟨d, hp, -, -⟩
  · exact hacc c hin
  · rw [hp]; rfl

theorem psd_parses (now : DT) (month year : String) : ∀ (sched : List (Nat × List Event))
    (acc acc' : List TaskCandidate) (r : Bool),
    process_schedule_days now month year sched acc = (acc', r) →
    (∀ c ∈ acc, (parseDate c.date).isSome) →
    ∀ c ∈ acc', (parseDate c.date).isSome := by
  intro sched
  induction sched with
  | nil =>
    intro acc acc' r h hacc c hc
    simp only [process_schedule_days, Prod.mk.injEq] at h
    exact hacc c (h.1 ▸ hc)
  | cons p rest ih =>
    obtain ⟨day, evs⟩ := p
    intro acc acc' r h hacc c hc
    simp only [process_schedule_days] at h
    by_cases he : evs = []
    · rw [if_pos he] at h
      exact ih acc acc' r h hacc c hc
    · rw [if_neg he] at h
      cases hpd : process_day_events now evs day month year acc with
      | mk acc1 r1 =>
        rw [hpd] at h
        cases r1 with
        | true =>
          dsimp only at h
          simp only [Prod.mk.injEq] at h
          exact pde_parses now evs day month year acc acc1 true hpd hacc c (h.1 ▸ hc)
        | false =>
          dsimp only at h
          exact ih acc1 acc' r h (pde_parses now evs day month year acc acc1 false hpd hacc) c hc

theorem psh_invariant (now : DT) (details : String → Option (List (String × String)))
    (acc : List TaskCandidate) (hw : Homework) (acc' : List TaskCandidate)
    (h : process_single_homework now details acc hw = some acc') :
    ∀ c ∈ acc', c ∈ acc ∨ ∃ tok d, pyFirstToken hw.completion_date = some tok ∧
      parseDate tok = some d ∧ dateLt now.date d = true ∧ c.date = tok := by
  intro c hc
  unfold process_single_homework at h
  cases ht : pyFirstToken hw.completion_date with
  | none => rw [ht] at h; simp at h
  | some tok =>
    rw [ht] at h
    dsimp only at h
    cases hp : parseDate tok with
    | none =>
      rw [hp] at h
      dsimp only at h
      obtain rfl := Option.some.inj h
      exact Or.inl hc
    | some d =>
      rw [hp] at h
      dsimp only at h
      by_cases h1 : d = now.date
      · rw [if_pos h1] at h
        obtain rfl := Option.some.inj h
        exact Or.inl hc
      · rw [if_neg h1] at h
        by_cases h2 : dateLt d now.date = true
        · rw [if_pos h2] at h
          obtain rfl := Option.some.inj h
          exact Or.inl hc
        · rw [if_neg h2] at h
          cases hd : details hw.href with
          | none => rw [hd] at h; simp at h
          | some det =>
            rw [hd] at h
            dsimp only at h
            obtain rfl := Option.some.inj h
            rcases List.mem_append.mp hc with hin | hnew
            · exact Or.inl hin
            · right
              rcases List.mem_singleton.mp hnew with rfl
              refine ⟨tok, d, rfl, hp, ?_, rfl⟩
              rcases dateLt_tri d now.date with ha | ha | ha
              · exact absurd ha h2
              · exact absurd ha h1
              · exact ha

theorem ph_parses (now : DT) (details : String → Option (List (String × String))) :
    ∀ (hws : List Homework) (acc : List TaskCandidate),
    (∀ c ∈ acc, (parseDate c.date).isSome) →
    ∀ c ∈ process_homework now details hws acc, (parseDate c.date).isSome := by
  intro hws
  induction hws with
  | nil =>
    intro acc hacc c hc
    simp only [process_homework] at hc
    exact hacc c hc
  | cons hw rest ih =>
    intro acc hacc c hc
    simp only [process_homework] at hc
    cases hph : process_single_homework now details acc hw with
    | none =>
      rw [hph] at hc
      dsimp only at hc
      exact hacc c hc
    | some acc1 =>
      rw [hph] at hc
      dsimp only at hc
      refine ih acc1 ?_ c hc
      intro c' hc'
      rcases psh_invariant now details acc hw acc1 hph c' hc' with hin | ⟨tok, d, -, hp, -, hdate⟩
      · exact hacc c' hin
      · rw [hdate, hp]; rfl

end LibrusSpec

namespace LibrusSpec

/-! ### Helper step equations for concrete runs -/

theorem processTasksGo_nil (now : DT) (store : List RemoteTask) (n : Nat) :
    processTasksGo now [] store n = some (store, n, []) := rfl

theorem processTasksGo_cons (now : DT) (c0 : TaskCandidate) (cs : List TaskCandidate)
    (store store1 : List RemoteTask) (n : Nat) (added : Bool) (ops : List String)
    (ha : add_task_if_not_exists now store c0.title c0.date c0.notes = some (store1, added, ops))
    (s2 : List RemoteTask) (m2 : Nat) (tr2 : List String)
    (hg : processTasksGo now cs store1 (if added then n + 1 else n) = some (s2, m2, tr2)) :
    processTasksGo now (c0 :: cs) store n = some (s2, m2, ops ++ tr2) := by
  simp only [processTasksGo]
  rw [ha]
  dsimp only
  rw [hg]

/-! ### The claims -/

/-- Claim C1 — suppression rule B ("already exists"): for a candidate that
reaches the dedup step (its date parses and is not today), the non-completed
task list is queried; if some task there has the candidate's title and a
`due` beginning with the candidate's date, the call returns with no insert;
otherwise exactly one insert of the new task occurs. -/
theorem claim_C1_rule_B (now : DT) (store : List RemoteTask) (title dt notes : String)
    (d : Date) (hp : parseDate dt = some d) (hne : d ≠ now.date) :
    add_task_if_not_exists now store title dt notes =
      if visibleMatch store title dt then some (store, false, [dt])
      else some (store ++ [newRemoteTask title d notes], true, [dt, dt]) := by
  by_cases h2 : visibleMatch store title dt = true
  · rw [if_pos h2]
    exact add_eq_skip_match now store title dt notes d hp hne h2
  · rw [if_neg h2]
    exact add_eq_insert now store title dt notes d hp hne (Bool.eq_false_iff.mpr h2)

/-- Witness for C1 at a concrete input. -/
theorem claim_C1_rule_B_witness :
    add_task_if_not_exists ⟨⟨2024, 5, 15⟩, 0⟩
        [⟨"t", "2024-05-16T00:00:00Z", "n", false⟩] "t" "2024-05-16" "n" =
      if visibleMatch [⟨"t", "2024-05-16T00:00:00Z", "n", false⟩] "t" "2024-05-16" then
        some ([⟨"t", "2024-05-16T00:00:00Z", "n", false⟩], false, ["2024-05-16"])
      else
        some ([⟨"t", "2024-05-16T00:00:00Z", "n", false⟩] ++
          [newRemoteTask "t" ⟨2024, 5, 16⟩ "n"], true, ["2024-05-16", "2024-05-16"]) :=
  claim_C1_rule_B ⟨⟨2024, 5, 15⟩, 0⟩ [⟨"t", "2024-05-16T00:00:00Z", "n", false⟩]
    "t" "2024-05-16" "n" ⟨2024, 5, 16⟩ (by decide) (by decide)

/-- Claim C2 — suppression rule A ("same-day"): a candidate whose date parses
to the current calendar date is skipped with no Task-Store interaction at
all, whatever the store contains. -/
theorem claim_C2_same_day_skip (now : DT) (store : List RemoteTask) (title dt notes : String)
    (hp : parseDate dt = some now.date) :
    add_task_if_not_exists now store title dt notes = some (store, false, []) :=
  add_eq_skip_today now store title dt notes now.date hp rfl

/-- Witness for C2 at a concrete input (with a matching task in the store,
to exhibit independence from the store's contents). -/
theorem claim_C2_same_day_skip_witness :
    add_task_if_not_exists ⟨⟨2024, 5, 15⟩, 3600⟩
        [⟨"x", "2024-05-15T00:00:00Z", "n", false⟩] "x" "2024-05-15" "n" =
      some ([⟨"x", "2024-05-15T00:00:00Z", "n", false⟩], false, []) :=
  claim_C2_same_day_skip ⟨⟨2024, 5, 15⟩, 3600⟩ [⟨"x", "2024-05-15T00:00:00Z", "n", false⟩]
    "x" "2024-05-15" "n" (by decide)

/-- Claim C3 — idempotence: with every candidate's date in canonical
`YYYY-MM-DD` form (the data model's shape for `due_date`), a second
`process_collected_tasks` run over the store produced by the first returns
count 0 and leaves the store unchanged. -/
theorem claim_C3_idempotent (now : DT) (store : List RemoteTask) (tasks : List TaskCandidate)
    (hc : ∀ c ∈ tasks, ∃ d, parseDate c.date = some d ∧ formatDate d = c.date)
    (s1 : List RemoteTask) (n1 : Nat) (tr1 : List String)
    (h1 : process_collected_tasks now store tasks = some (s1, n1, tr1)) :
    ∃ tr2, process_collected_tasks now s1 tasks = some (s1, 0, tr2) := by
  unfold process_collected_tasks at h1 ⊢
  apply run_zero
  intro c hcm
  obtain ⟨d, hp, hf⟩ := hc c ((mem_sortTasks c tasks).mp hcm)
  exact ⟨d, hp, run_establishes now (sortTasks tasks) store 0 s1 n1 tr1 h1 c hcm d hp hf⟩

/-- Witness for C3 at a concrete input. -/
theorem claim_C3_idempotent_witness :
    ∃ tr2, process_collected_tasks ⟨⟨2024, 5, 15⟩, 0⟩
        [⟨"t", "2024-05-16T00:00:00Z", "n", false⟩] [⟨"t", "2024-05-16", "n"⟩] =
      some ([⟨"t", "2024-05-16T00:00:00Z", "n", false⟩], 0, tr2) :=
  claim_C3_idempotent ⟨⟨2024, 5, 15⟩, 0⟩ [] [⟨"t", "2024-05-16", "n"⟩]
    (by
      intro c hc
      rcases List.mem_singleton.mp hc with rfl
      exact ⟨⟨2024, 5, 16⟩, by decide, by decide⟩)
    [⟨"t", "2024-05-16T00:00:00Z", "n", false⟩] 1 ["2024-05-16", "2024-05-16"] (by decide)

/-- Claim C4 (amended) — candidate-creation date invariant as the code has
it: a schedule candidate is only created for an event date `d` with
`(d, midnight)` not before `now - 1 day`, i.e. `d` is never strictly before
yesterday, and `d` can equal yesterday only when the run happens exactly at
midnight; a homework candidate is only created for a date strictly after
today.  (Today-dated schedule events do pass this filter and do produce
candidates — see the counterexample.) -/
theorem claim_C4_date_invariant_amended (now : DT) :
    (∀ (events : List Event) (day : Nat) (month year : String)
       (acc acc' : List TaskCandidate) (r : Bool),
       process_day_events now events day month year acc = (acc', r) →
       ∀ c ∈ acc', c ∈ acc ∨ ∃ d, parseDate c.date = some d ∧
         dateLt d (prevDate now.date) = false ∧ (d = prevDate now.date → now.tod = 0)) ∧
    (∀ (details : String → Option (List (String × String)))
       (acc : List TaskCandidate) (hw : Homework) (acc' : List TaskCandidate),
       process_single_homework now details acc hw = some acc' →
       ∀ c ∈ acc', c ∈ acc ∨ ∃ tok d, pyFirstToken hw.completion_date = some tok ∧
         parseDate tok = some d ∧ dateLt now.date d = true ∧ c.date = tok) :=
  ⟨fun events day month year acc acc' r h =>
      pde_invariant now events day month year acc acc' r h,
   fun details acc hw acc' h => psh_invariant now details acc hw acc' h⟩

/-- Witness for the amended C4: at a midnight run, a yesterday-dated event
does produce a candidate satisfying the invariant. -/
theorem claim_C4_date_invariant_amended_witness :
    (⟨"Sprawdzian - Fizyka (8:00)", "2024-05-14", "Brak dodatkowych informacji"⟩ : TaskCandidate) ∈
        ([] : List TaskCandidate) ∨
      ∃ d, parseDate "2024-05-14" = some d ∧
        dateLt d (prevDate (⟨2024, 5, 15⟩ : Date)) = false ∧
        (d = prevDate (⟨2024, 5, 15⟩ : Date) → (0 : Nat) = 0) :=
  (claim_C4_date_invariant_amended ⟨⟨2024, 5, 15⟩, 0⟩).1
    [⟨"Sprawdzian", "Fizyka", "8:00", []⟩] 14 "05" "2024" []
    [⟨"Sprawdzian - Fizyka (8:00)", "2024-05-14", "Brak dodatkowych informacji"⟩] false
    (by decide) ⟨"Sprawdzian - Fizyka (8:00)", "2024-05-14", "Brak dodatkowych informacji"⟩
    (by decide)

/-- Counterexample to C4 as stated: at a run on 2024-05-15 (10:00, i.e.
`tod = 36000`), a keyword event dated that same day is appended to the
collection — a TaskCandidate IS created for an event dated today. -/
theorem claim_C4_counterexample :
    process_day_events ⟨⟨2024, 5, 15⟩, 36000⟩
        [⟨"Sprawdzian", "Fizyka", "8:00", []⟩] 15 "05" "2024" [] =
      ([⟨"Sprawdzian - Fizyka (8:00)", "2024-05-15", "Brak dodatkowych informacji"⟩], false) ∧
    parseDate "2024-05-15" = some ⟨2024, 5, 15⟩ := by
  decide

/-- Claim C5 (amended) — run-local duplicates ARE suppressed when the
candidate's date is canonical: the task list is re-queried from the store
before each insert, so the second of two identical candidates in one batch
matches the task inserted for the first and is skipped; exactly one insert
happens and the count is 1. -/
theorem claim_C5_run_local_dedup_amended (now : DT) (store : List RemoteTask)
    (c : TaskCandidate) (d : Date)
    (hp : parseDate c.date = some d) (hf : formatDate d = c.date)
    (hne : d ≠ now.date) (hnm : visibleMatch store c.title c.date = false) :
    process_collected_tasks now store [c, c] =
      some (store ++ [newRemoteTask c.title d c.notes], 1, [c.date, c.date, c.date]) := by
  have hsort : sortTasks [c, c] = [c, c] := by
    simp [sortTasks, insertDesc, pyStrLe_refl]
  have hm2 : visibleMatch (store ++ [newRemoteTask c.title d c.notes]) c.title c.date = true :=
    visibleMatch_new store c.title c.notes c.date d hf
  have hstep2 : processTasksGo now [c] (store ++ [newRemoteTask c.title d c.notes]) 1 =
      some (store ++ [newRemoteTask c.title d c.notes], 1, [c.date] ++ []) :=
    processTasksGo_cons now c [] _ _ 1 false [c.date]
      (add_eq_skip_match now _ c.title c.date c.notes d hp hne hm2) _ _ _
      (processTasksGo_nil now _ 1)
  have hstep1 : processTasksGo now [c, c] store 0 =
      some (store ++ [newRemoteTask c.title d c.notes], 1, [c.date, c.date] ++ ([c.date] ++ [])) :=
    processTasksGo_cons now c [c] store _ 0 true [c.date, c.date]
      (add_eq_insert now store c.title c.date c.notes d hp hne hnm) _ _ _ hstep2
  unfold process_collected_tasks
  rw [hsort]
  exact hstep1

/-- Witness for the amended C5 at a concrete input. -/
theorem claim_C5_run_local_dedup_amended_witness :
    process_collected_tasks ⟨⟨2024, 5, 15⟩, 3600⟩ []
        [⟨"zadanie - Chemia", "2024-05-22", "n"⟩, ⟨"zadanie - Chemia", "2024-05-22", "n"⟩] =
      some ([] ++ [newRemoteTask "zadanie - Chemia" ⟨2024, 5, 22⟩ "n"], 1,
        ["2024-05-22", "2024-05-22", "2024-05-22"]) :=
  claim_C5_run_local_dedup_amended ⟨⟨2024, 5, 15⟩, 3600⟩ []
    ⟨"zadanie - Chemia", "2024-05-22", "n"⟩ ⟨2024, 5, 22⟩
    (by decide) (by decide) (by decide) (by decide)

/-- Counterexample to C5 as stated: a batch of two identical candidates
against an empty store yields ONE insert (final store of size 1, count 1),
not the two inserts the claim asserts — the list query before the second
candidate sees the first candidate's insert. -/
theorem claim_C5_counterexample :
    process_collected_tasks ⟨⟨2024, 5, 15⟩, 3600⟩ []
        [⟨"zadanie - Fizyka", "2024-05-20", "n"⟩, ⟨"zadanie - Fizyka", "2024-05-20", "n"⟩] =
      some ([⟨"zadanie - Fizyka", "2024-05-20T00:00:00Z", "n", false⟩], 1,
        ["2024-05-20", "2024-05-20", "2024-05-20"]) := by
  decide

end LibrusSpec

namespace LibrusSpec

/-- Claim C6 — homework filter is strictly-future: a single-homework call
either leaves the collection unchanged or appends exactly one candidate
whose parsed completion date is strictly after today; and whenever the
parsed date is not strictly after today (today or past), the call returns
with the collection unchanged. -/
theorem claim_C6_homework_strictly_future (now : DT)
    (details : String → Option (List (String × String)))
    (acc : List TaskCandidate) (hw : Homework) :
    (∀ acc', process_single_homework now details acc hw = some acc' →
       acc' = acc ∨ ∃ tok d det, pyFirstToken hw.completion_date = some tok ∧
         parseDate tok = some d ∧ dateLt now.date d = true ∧ details hw.href = some det ∧
         acc' = acc ++ [⟨"zadanie - " ++ hw.lesson, tok, homeworkNotes det⟩]) ∧
    (∀ tok d, pyFirstToken hw.completion_date = some tok → parseDate tok = some d →
       dateLt now.date d = false → process_single_homework now details acc hw = some acc) := by
  constructor
  · intro acc' h
    unfold process_single_homework at h
    cases ht : pyFirstToken hw.completion_date with
    | none => rw [ht] at h; simp at h
    | some tok =>
      rw [ht] at h
      dsimp only at h
      cases hp : parseDate tok with
      | none =>
        rw [hp] at h
        dsimp only at h
        exact Or.inl (Option.some.inj h).symm
      | some d =>
        rw [hp] at h
        dsimp only at h
        by_cases h1 : d = now.date
        · rw [if_pos h1] at h
          exact Or.inl (Option.some.inj h).symm
        · rw [if_neg h1] at h
          by_cases h2 : dateLt d now.date = true
          · rw [if_pos h2] at h
            exact Or.inl (Option.some.inj h).symm
          · rw [if_neg h2] at h
            cases hd : details hw.href with
            | none => rw [hd] at h; simp at h
            | some det =>
              rw [hd] at h
              dsimp only at h
              right
              refine ⟨tok, d, det, rfl, hp, ?_, rfl, (Option.some.inj h).symm⟩
              rcases dateLt_tri d now.date with ha | ha | ha
              · exact absurd ha h2
              · exact absurd ha h1
              · exact ha
  · intro tok d ht hp hlt
    unfold process_single_homework
    rw [ht]
    dsimp only
    rw [hp]
    dsimp only
    by_cases h1 : d = now.date
    · rw [if_pos h1]
    · rw [if_neg h1]
      have h2 : dateLt d now.date = true := by
        rcases dateLt_tri d now.date with ha | ha | ha
        · exact ha
        · exact absurd ha h1
        · exact absurd (ha.symm.trans hlt) (by decide)
      rw [if_pos h2]

/-- Witness for C6 at a concrete input: yesterday-dated homework is dropped. -/
theorem claim_C6_homework_strictly_future_witness :
    process_single_homework ⟨⟨2024, 5, 15⟩, 0⟩ (fun _ => some []) []
        ⟨"Fizyka", "2024-05-14 10:00:00", "h"⟩ = some [] :=
  (claim_C6_homework_strictly_future ⟨⟨2024, 5, 15⟩, 0⟩ (fun _ => some []) []
      ⟨"Fizyka", "2024-05-14 10:00:00", "h"⟩).2 "2024-05-14" ⟨2024, 5, 14⟩
    (by decide) (by decide) (by decide)

/-- Claim C7 — submission order: the Task-Store interactions of a
`process_collected_tasks` run, each tagged with its candidate's date, occur
in non-increasing (descending) date order, latest date first. -/
theorem claim_C7_descending_order (now : DT) (store : List RemoteTask)
    (tasks : List TaskCandidate) (s' : List RemoteTask) (m : Nat) (tr : List String)
    (h : process_collected_tasks now store tasks = some (s', m, tr)) :
    tr.Pairwise (fun x y => pyStrLe y x = true) :=
  go_trace_sorted now (sortTasks tasks) store 0 s' m tr (sortTasks_sorted tasks) h

/-- Witness for C7 at a concrete input. -/
theorem claim_C7_descending_order_witness :
    List.Pairwise (fun x y => pyStrLe y x = true)
      ["2024-05-17", "2024-05-17", "2024-05-16", "2024-05-16"] :=
  claim_C7_descending_order ⟨⟨2024, 5, 15⟩, 0⟩ []
    [⟨"a", "2024-05-16", "n"⟩, ⟨"b", "2024-05-17", "n"⟩]
    [⟨"b", "2024-05-17T00:00:00Z", "n", false⟩, ⟨"a", "2024-05-16T00:00:00Z", "n", false⟩] 2
    ["2024-05-17", "2024-05-17", "2024-05-16", "2024-05-16"] (by decide)

/-- Claim C8 (amended) — per-item isolation for parse failures: a homework
item whose `completion_date` has a first whitespace-delimited token that
fails date parsing is skipped and the rest of the batch is processed as if
the item were absent.  (A `completion_date` with no token at all instead
aborts the remaining batch — see the counterexample.) -/
theorem claim_C8_parse_isolation_amended (now : DT)
    (details : String → Option (List (String × String)))
    (acc : List TaskCandidate) (as bs : List Homework) (hw : Homework) (tok : String)
    (ht : pyFirstToken hw.completion_date = some tok) (hp : parseDate tok = none) :
    process_homework now details (as ++ hw :: bs) acc =
      process_homework now details (as ++ bs) acc := by
  induction as generalizing acc with
  | nil =>
    simp only [List.nil_append, process_homework]
    have hskip : process_single_homework now details acc hw = some acc := by
      unfold process_single_homework
      rw [ht]
      dsimp only
      rw [hp]
    rw [hskip]
  | cons a as' ih =>
    simp only [List.cons_append, process_homework]
    cases hpa : process_single_homework now details acc a with
    | none => rfl
    | some acc1 =>
      dsimp only
      exact ih acc1

/-- Witness for the amended C8 at a concrete input. -/
theorem claim_C8_parse_isolation_amended_witness :
    process_homework ⟨⟨2024, 5, 15⟩, 0⟩ (fun _ => some [])
        [⟨"Fizyka", "2024-05-20 10:00:00", "h1"⟩, ⟨"Chemia", "9999-99-99 x", "h2"⟩,
         ⟨"Matematyka", "2024-05-21 10:00:00", "h3"⟩] [] =
      process_homework ⟨⟨2024, 5, 15⟩, 0⟩ (fun _ => some [])
        [⟨"Fizyka", "2024-05-20 10:00:00", "h1"⟩,
         ⟨"Matematyka", "2024-05-21 10:00:00", "h3"⟩] [] :=
  claim_C8_parse_isolation_amended ⟨⟨2024, 5, 15⟩, 0⟩ (fun _ => some []) []
    [⟨"Fizyka", "2024-05-20 10:00:00", "h1"⟩] [⟨"Matematyka", "2024-05-21 10:00:00", "h3"⟩]
    ⟨"Chemia", "9999-99-99 x", "h2"⟩ "9999-99-99" (by decide) (by decide)

/-- Counterexample to C8 as stated: an empty (whitespace-only)
`completion_date` is a malformed date field, but `split()[0]` raising
`IndexError` happens before the guarded `strptime`, so the blanket handler
in `process_homework` ends the batch: the later valid item "Matematyka"
produces no candidate, although it does when the malformed item is absent. -/
theorem claim_C8_counterexample :
    process_homework ⟨⟨2024, 5, 15⟩, 0⟩ (fun _ => some [])
        [⟨"Fizyka", "2024-05-20 10:00:00", "h1"⟩, ⟨"Chemia", "", "h2"⟩,
         ⟨"Matematyka", "2024-05-21 10:00:00", "h3"⟩] [] =
      [⟨"zadanie - Fizyka", "2024-05-20", ""⟩] ∧
    process_homework ⟨⟨2024, 5, 15⟩, 0⟩ (fun _ => some [])
        [⟨"Fizyka", "2024-05-20 10:00:00", "h1"⟩,
         ⟨"Matematyka", "2024-05-21 10:00:00", "h3"⟩] [] =
      [⟨"zadanie - Fizyka", "2024-05-20", ""⟩, ⟨"zadanie - Matematyka", "2024-05-21", ""⟩] := by
  decide

/-- Claim C9 — notifier truncation: with a webhook configured, the embed is
sent with the description unchanged when its length is at most 4096
characters, and with its first 4093 characters followed by `"..."` when
longer. -/
theorem claim_C9_notifier_truncation (url title description : String) (color : Nat)
    (nowIso : String) :
    send_discord_embed (some url) title description color nowIso =
      some ⟨title,
        if description.length > 4096 then description.take 4093 ++ "..." else description,
        color, nowIso⟩ := rfl

/-- Claim C10 — collected dates always parse: whenever the collection phase
completes (so that `process_collected_tasks` is reached at all), every
collected candidate's date parses, and hence the submission pass, whose
only failure mode is the unguarded `strptime` in `add_task_if_not_exists`,
never raises. -/
theorem claim_C10_collected_dates_parse (now now2 : DT) (schedule : List (Nat × List Event))
    (month year : String) (details : String → Option (List (String × String)))
    (homeworks : List Homework) (all_tasks : List TaskCandidate) (store : List RemoteTask)
    (h : collect_all now schedule month year details homeworks = some all_tasks) :
    (∀ c ∈ all_tasks, (parseDate c.date).isSome) ∧
      (process_collected_tasks now2 store all_tasks).isSome := by
  have hparse : ∀ c ∈ all_tasks, (parseDate c.date).isSome := by
    unfold collect_all at h
    cases hs : process_schedule_days now month year schedule [] with
    | mk acc r =>
      rw [hs] at h
      cases r with
      | true =>
        dsimp only at h
        exact absurd h (by simp)
      | false =>
        dsimp only at h
        obtain rfl := Option.some.inj h
        exact ph_parses now details homeworks acc
          (psd_parses now month year schedule [] acc false hs
            (fun c hc => absurd hc (List.not_mem_nil c)))
  refine ⟨hparse, ?_⟩
  unfold process_collected_tasks
  exact go_total now2 (sortTasks all_tasks) store 0
    (fun c hc => hparse c ((mem_sortTasks c all_tasks).mp hc))

/-- Witness for C10 at a concrete input. -/
theorem claim_C10_collected_dates_parse_witness :
    (∀ c ∈ ([⟨"Sprawdzian - Fizyka (8:00)", "2024-05-16", "Brak dodatkowych informacji"⟩,
             ⟨"zadanie - Chemia", "2024-05-20", ""⟩] : List TaskCandidate),
       (parseDate c.date).isSome) ∧
      (process_collected_tasks ⟨⟨2024, 5, 16⟩, 100⟩ []
        [⟨"Sprawdzian - Fizyka (8:00)", "2024-05-16", "Brak dodatkowych informacji"⟩,
         ⟨"zadanie - Chemia", "2024-05-20", ""⟩]).isSome :=
  claim_C10_collected_dates_parse ⟨⟨2024, 5, 15⟩, 0⟩ ⟨⟨2024, 5, 16⟩, 100⟩
    [(16, [⟨"Sprawdzian", "Fizyka", "8:00", []⟩])] "05" "2024" (fun _ => some [])
    [⟨"Chemia", "2024-05-20 10:00:00", "h"⟩]
    [⟨"Sprawdzian - Fizyka (8:00)", "2024-05-16", "Brak dodatkowych informacji"⟩,
     ⟨"zadanie - Chemia", "2024-05-20", ""⟩] [] (by decide)

end LibrusSpec
